import Mathlib

/-!
# Step/direction to H-bridge phase conversion (`hbridge.c`)

A shallow embedding of `hbridge.c` and proofs about it.

Conventions of the embedding:

* a C `uint8_t` value is a `Nat` below `256`; every store into a `uint8_t`
  variable is an explicit `CInt.toUInt8` (reduction modulo `2 ^ 8`);
* a C `int` value is an `Int`; the operators the source applies to `int`
  operands (`+`, `&`, `|`, `~`, `<<`, `>>`) are the functions of namespace
  `CInt`, which compute on the 32-bit two's complement representation;
* bit positions (shift counts) are natural numbers; the program only shifts
  by the positions 0 to 7, far from the width of `int`;
* the global variable `currentPhase` is passed explicitly: `toHbridge` takes
  the stored byte and returns the output together with the new stored byte.
-/

namespace Hbridge

/-! ## C integer arithmetic -/

namespace CInt

/-- Number of value bits of the two's complement representation of `int`. -/
def INT_BITS : Nat := 32

/-- Two's complement wrap-around of a mathematical integer into the range
`-2 ^ 31 .. 2 ^ 31 - 1` of `int`. ISO C leaves signed overflow undefined; the
model takes the wrap-around that the usual targets exhibit. The one addition
of the program that can overflow is `currentIndex + 1` in `getNextIndex`, at
the greatest `int`. -/
def wrap (x : Int) : Int := (x + 2 ^ (INT_BITS - 1)) % 2 ^ INT_BITS - 2 ^ (INT_BITS - 1)

/-- The 32-bit two's complement bit pattern of an `int`. -/
def toBits (x : Int) : Nat := (x % 2 ^ INT_BITS).toNat

/-- The `int` denoted by a bit pattern. -/
def ofBits (n : Nat) : Int := wrap (n : Int)

/-- C `a + b` on `int`. -/
def add (a b : Int) : Int := wrap (a + b)

/-- C `a & b` on `int`. -/
def land (a b : Int) : Int := ofBits (toBits a &&& toBits b)

/-- C `a | b` on `int`. -/
def lor (a b : Int) : Int := ofBits (toBits a ||| toBits b)

/-- C `~a` on `int`: every bit of the representation flipped. -/
def lnot (a : Int) : Int := ofBits (toBits a ^^^ (2 ^ INT_BITS - 1))

/-- C `a << n` on `int`. -/
def shl (a : Int) (n : Nat) : Int := ofBits (toBits a <<< n)

/-- C `a >> n` on `int` (arithmetic shift). -/
def shr (a : Int) (n : Nat) : Int := a >>> n

/-- The least value of `int`. -/
def INT_MIN : Int := -2 ^ (INT_BITS - 1)

/-- The greatest value of `int`. -/
def INT_MAX : Int := 2 ^ (INT_BITS - 1) - 1

/-- Conversion of an `int` to `uint8_t`: reduction modulo `2 ^ 8`. -/
def toUInt8 (x : Int) : Nat := (x % 256).toNat

end CInt

/-! ## The program -/

/-- Element `i` of a constant table, for an `int` index. An index outside the
table (undefined behaviour in C) reads as `0`. -/
def tableAt (table : List Nat) (i : Int) : Nat :=
  if 0 ≤ i then table.getD i.toNat 0 else 0

/-- The bit patterns for halfstep movement. -/
def PHASES : List Nat := [0, 1, 3, 2]

/-- The position within the phase-array. -/
def PHASE_INDEX : List Nat := [0, 1, 3, 2]

/-- The number of entries of `PHASES`, `sizeof(PHASES)/sizeof(uint8_t)`. -/
def AMOUNT_OF_PHASES : Int := PHASES.length

/-- Initial value of the global `currentPhase`. -/
def currentPhase : Nat := 0

/-- Get the next index in the phase array (loop around). -/
def getNextIndex (currentIndex : Int) : Int :=
  let nextIndex := CInt.add currentIndex 1
  if nextIndex ≥ AMOUNT_OF_PHASES ∨ nextIndex < 0 then 0 else nextIndex

/-- If dir-bit is not set, the bit pattern is inverted. -/
def invertIfNecessary (dir : Int) (pattern : Nat) : Nat :=
  if dir = 0 then CInt.toUInt8 (CInt.lnot (pattern : Int)) else pattern

/-- Get the next phase depending on the step, dir and state. -/
def getNextPhase (step dir currentIndex : Int) : Nat :=
  if step = 0 then 0
  else
    let index := getNextIndex currentIndex
    let phase := invertIfNecessary dir (tableAt PHASES index)
    CInt.toUInt8 (CInt.land (phase : Int) 3)

/-- Get the bit at the given position. -/
def bitAt (statePattern : Nat) (position : Nat) : Int :=
  CInt.shr (CInt.land (statePattern : Int) (CInt.shl 1 position)) position

/-- Set the next phase's bit pattern at the step-bit and dir-bit positions. -/
def setPhase (inputPattern statePattern result : Nat) (stepBitPos directionBitPos : Nat) : Nat :=
  let step := bitAt inputPattern stepBitPos
  let direction := bitAt inputPattern directionBitPos
  let currentPhase := CInt.lor (CInt.shl (bitAt statePattern stepBitPos) 1)
    (bitAt statePattern directionBitPos)
  let currentIndex : Int := (tableAt PHASE_INDEX currentPhase : Nat)
  let nextPhase := getNextPhase step direction currentIndex
  let result := CInt.toUInt8 (CInt.land (result : Int) (CInt.lnot (CInt.shl 1 stepBitPos)))
  let result := CInt.toUInt8 (CInt.land (result : Int) (CInt.lnot (CInt.shl 1 directionBitPos)))
  let result := CInt.toUInt8 (CInt.lor (result : Int) (CInt.shl (bitAt nextPhase 1) stepBitPos))
  let result := CInt.toUInt8 (CInt.lor (result : Int) (CInt.shl (bitAt nextPhase 0) directionBitPos))
  result

/-- Modelled from the spec: `config.h` is not among the sources; the step and
direction bit of each axis are the slots X = (2, 5), Y = (3, 6), Z = (4, 7)
that the test fixtures of `hbridgetest.c` are written for. -/
def X_STEP_BIT : Nat := 2

/-- Modelled from the spec: see `X_STEP_BIT`. -/
def Y_STEP_BIT : Nat := 3

/-- Modelled from the spec: see `X_STEP_BIT`. -/
def Z_STEP_BIT : Nat := 4

/-- Modelled from the spec: see `X_STEP_BIT`. -/
def X_DIRECTION_BIT : Nat := 5

/-- Modelled from the spec: see `X_STEP_BIT`. -/
def Y_DIRECTION_BIT : Nat := 6

/-- Modelled from the spec: see `X_STEP_BIT`. -/
def Z_DIRECTION_BIT : Nat := 7

/-- Set the next phase's bit patterns for the three axis. -/
def getMultiAxisPhase (inputPattern statePattern : Nat) : Nat :=
  let result := inputPattern
  let result := setPhase inputPattern statePattern result X_STEP_BIT X_DIRECTION_BIT
  let result := setPhase inputPattern statePattern result Y_STEP_BIT Y_DIRECTION_BIT
  let result := setPhase inputPattern statePattern result Z_STEP_BIT Z_DIRECTION_BIT
  result

/-- Convert the given step/dir-pattern to phase-style depending on the current
phase. The first component is the returned byte, the second the value of the
global `currentPhase` after the call. -/
def toHbridge (stepDirPattern : Nat) (currentPhase : Nat) : Nat × Nat :=
  let nextPhase := getMultiAxisPhase stepDirPattern currentPhase
  (nextPhase, nextPhase)

/-- Consecutive calls `toHbridge p` for the patterns `p` of a list, from the
stored byte `currentPhase`: the returned bytes in call order, and the stored
byte after the last call. -/
def toHbridgeCalls (currentPhase : Nat) : List Nat → List Nat × Nat
  | [] => ([], currentPhase)
  | p :: ps =>
    let r := toHbridge p currentPhase
    let rest := toHbridgeCalls r.2 ps
    (r.1 :: rest.1, rest.2)

/-! ## Auxiliary definitions for the proofs -/

/-- The `int` value `1` or `0` of a truth value. -/
def bitVal (b : Bool) : Int := if b then 1 else 0

/-- The phase `setPhase` computes for an axis, from the step and direction bit
of the input (`a`, `b`) and of the state (`c`, `e`). -/
def axisPhase (a b c e : Bool) : Nat :=
  getNextPhase (bitVal a) (bitVal b)
    ((tableAt PHASE_INDEX (CInt.lor (CInt.shl (bitVal c) 1) (bitVal e)) : Nat) : Int)

/-- The step and direction bit positions of the three axes, as
`getMultiAxisPhase` passes them to `setPhase`. -/
def axisSlots : List (Nat × Nat) :=
  [(X_STEP_BIT, X_DIRECTION_BIT), (Y_STEP_BIT, Y_DIRECTION_BIT), (Z_STEP_BIT, Z_DIRECTION_BIT)]

/-- The 2-bit phase an axis holds in a byte, read the way `setPhase` reads the
state: `(bitAt(x, stepBitPos) << 1) | bitAt(x, directionBitPos)`. -/
def slotPhase (x : Nat) (stepBitPos directionBitPos : Nat) : Int :=
  CInt.lor (CInt.shl (bitAt x stepBitPos) 1) (bitAt x directionBitPos)

/-- The step-position bit and the direction-position bit of a byte at a slot. -/
def axisBits (x : Nat) (slot : Nat × Nat) : Bool × Bool :=
  (x.testBit slot.1, x.testBit slot.2)

/-- The slot bits of an axis after one `setPhase`, from the step and direction
bit of the input (`a`, `b`) and the slot bits `q` of the state. -/
def axisStep (a b : Bool) (q : Bool × Bool) : Bool × Bool :=
  ((axisPhase a b q.1 q.2).testBit 1, (axisPhase a b q.1 q.2).testBit 0)

/-- The three `setPhase` calls of `getMultiAxisPhase`, made in the order of
the given list of slots. -/
def setPhaseInOrder (inputPattern statePattern : Nat) (order : List (Nat × Nat)) : Nat :=
  order.foldl (fun result slot => setPhase inputPattern statePattern result slot.1 slot.2)
    inputPattern

/-- The phase `setPhase` computes for the slot `(stepBitPos, directionBitPos)`:
the local variable `nextPhase` of the source. -/
def slotNextPhase (inputPattern statePattern : Nat) (stepBitPos directionBitPos : Nat) : Nat :=
  getNextPhase (bitAt inputPattern stepBitPos) (bitAt inputPattern directionBitPos)
    ((tableAt PHASE_INDEX (slotPhase statePattern stepBitPos directionBitPos) : Nat) : Int)

/-! ## Lemmas on the C integer operations -/

namespace CInt

theorem toBits_lt (x : Int) : toBits x < 2 ^ 32 := by
  simp only [toBits, INT_BITS]
  omega

theorem toBits_natCast (n : Nat) : toBits (n : Int) = n % 2 ^ 32 := by
  simp only [toBits, INT_BITS]
  omega

theorem toBits_ofBits (n : Nat) : toBits (ofBits n) = n % 2 ^ 32 := by
  simp only [toBits, ofBits, wrap, INT_BITS]
  omega

theorem ofBits_of_lt (n : Nat) (h : n < 2 ^ 31) : ofBits n = (n : Int) := by
  simp only [ofBits, wrap, INT_BITS]
  omega

theorem toUInt8_eq (x : Int) : toUInt8 x = toBits x % 256 := by
  simp only [toUInt8, toBits, INT_BITS]
  omega

theorem toBits_land (a b : Int) : toBits (land a b) = toBits a &&& toBits b := by
  rw [land, toBits_ofBits]
  exact Nat.mod_eq_of_lt (Nat.and_lt_two_pow _ (toBits_lt b))

theorem toBits_lor (a b : Int) : toBits (lor a b) = toBits a ||| toBits b := by
  rw [lor, toBits_ofBits]
  exact Nat.mod_eq_of_lt (Nat.or_lt_two_pow (toBits_lt a) (toBits_lt b))

theorem toBits_lnot (a : Int) : toBits (lnot a) = toBits a ^^^ (2 ^ 32 - 1) := by
  rw [lnot, toBits_ofBits]
  exact Nat.mod_eq_of_lt (Nat.xor_lt_two_pow (toBits_lt a) (by decide))

theorem toBits_shl (a : Int) (n : Nat) : toBits (shl a n) = (toBits a <<< n) % 2 ^ 32 := by
  rw [shl, toBits_ofBits]

end CInt

/-! ## Bit-level description of `bitAt` and `setPhase` -/

theorem and_two_pow_eq (x j : Nat) : x &&& 2 ^ j = if x.testBit j then 2 ^ j else 0 := by
  apply Nat.eq_of_testBit_eq
  intro k
  by_cases h : x.testBit j <;> by_cases hk : j = k <;> simp [h, hk, Nat.testBit_two_pow]
  · subst hk; simp [h]
  · subst hk; simp [h]

theorem bitAt_eq (x j : Nat) (hj : j < 31) : bitAt x j = bitVal (x.testBit j) := by
  have h2 : (2 : Nat) ^ j < 2 ^ 31 := Nat.pow_lt_pow_right (by decide) hj
  have h1 : CInt.toBits (CInt.shl 1 j) = 2 ^ j := by
    rw [CInt.toBits_shl]
    have : CInt.toBits 1 = 1 := by decide
    rw [this, Nat.one_shiftLeft]
    exact Nat.mod_eq_of_lt (by omega)
  have h3 : CInt.toBits (x : Int) &&& 2 ^ j = if x.testBit j then 2 ^ j else 0 := by
    rw [and_two_pow_eq, CInt.toBits_natCast, Nat.testBit_mod_two_pow]
    simp [show j < 32 by omega]
  unfold bitAt CInt.land CInt.shr
  rw [h1, h3]
  by_cases h : x.testBit j
  · simp only [h, if_true, bitVal]
    rw [CInt.ofBits_of_lt _ h2]
    show ((2 ^ j : Nat) : Int) >>> j = 1
    rw [Int.shiftRight_eq_div_pow]
    have hpos : ((2 ^ j : Nat) : Int) ≠ 0 := by positivity
    exact Int.ediv_self hpos
  · simp only [h, bitVal]
    simp [CInt.ofBits, CInt.wrap, CInt.INT_BITS]

theorem toBits_bitVal (b : Bool) : CInt.toBits (bitVal b) = b.toNat := by
  cases b <;> decide

theorem testBit_clear (r s k : Nat) (hs : s < 31) :
    (CInt.toUInt8 (CInt.land (r : Int) (CInt.lnot (CInt.shl 1 s)))).testBit k
      = (decide (k < 8) && (r.testBit k && !decide (k = s))) := by
  have h1 : CInt.toBits 1 = 1 := by decide
  have h2 : (2 : Nat) ^ s < 2 ^ 32 := Nat.pow_lt_pow_right (by decide) (by omega)
  rw [CInt.toUInt8_eq, CInt.toBits_land, CInt.toBits_lnot, CInt.toBits_shl, CInt.toBits_natCast,
    h1, Nat.one_shiftLeft, Nat.mod_eq_of_lt h2, show (256 : Nat) = 2 ^ 8 by rfl,
    Nat.testBit_mod_two_pow, Nat.testBit_and, Nat.testBit_mod_two_pow, Nat.testBit_xor,
    Nat.testBit_two_pow_sub_one, Nat.testBit_two_pow]
  by_cases h8 : k < 8
  · have : k < 32 := by omega
    by_cases hk : s = k
    · subst hk; simp [h8, this]
    · have hk2 : ¬ k = s := fun h => hk h.symm
      simp [h8, this, hk, hk2]
  · simp [h8]

theorem testBit_put (r s k : Nat) (b : Bool) (hs : s < 31) :
    (CInt.toUInt8 (CInt.lor (r : Int) (CInt.shl (bitVal b) s))).testBit k
      = (decide (k < 8) && (r.testBit k || (decide (k = s) && b))) := by
  rw [CInt.toUInt8_eq, CInt.toBits_lor, CInt.toBits_shl, CInt.toBits_natCast, toBits_bitVal,
    show (256 : Nat) = 2 ^ 8 by rfl, Nat.testBit_mod_two_pow, Nat.testBit_or,
    Nat.testBit_mod_two_pow, Nat.testBit_mod_two_pow, Nat.testBit_shiftLeft]
  by_cases h8 : k < 8
  · have h32 : k < 32 := by omega
    cases b
    · simp [h8, h32]
    · by_cases hk : k = s
      · subst hk; simp [h8, h32]
      · have : ¬ (k - s = 0 ∧ s ≤ k) := by omega
        by_cases hle : s ≤ k
        · have h0 : k - s ≠ 0 := by omega
          simp [h8, h32, hk, hle, Nat.testBit_one_eq_true_iff_self_eq_zero, h0]
        · simp [h8, h32, hk, hle]
  · simp [h8]

theorem setPhase_eq (i st r s d : Nat) (hs : s < 31) (hd : d < 31) :
    setPhase i st r s d =
      CInt.toUInt8 (CInt.lor
        ((CInt.toUInt8 (CInt.lor
          ((CInt.toUInt8 (CInt.land
            ((CInt.toUInt8 (CInt.land (r : Int) (CInt.lnot (CInt.shl 1 s))) : Nat) : Int)
            (CInt.lnot (CInt.shl 1 d))) : Nat) : Int)
          (CInt.shl (bitVal
            ((axisPhase (i.testBit s) (i.testBit d) (st.testBit s) (st.testBit d)).testBit 1))
            s)) : Nat) : Int)
        (CInt.shl (bitVal
          ((axisPhase (i.testBit s) (i.testBit d) (st.testBit s) (st.testBit d)).testBit 0)) d)) := by
  simp only [setPhase, axisPhase, bitAt_eq _ _ hs, bitAt_eq _ _ hd,
    bitAt_eq _ 1 (by decide), bitAt_eq _ 0 (by decide)]

theorem setPhase_testBit (i st r s d k : Nat) (hs : s < 31) (hd : d < 31) :
    (setPhase i st r s d).testBit k =
      (decide (k < 8) &&
        ((r.testBit k && !decide (k = s) && !decide (k = d))
          || (decide (k = s) &&
            (axisPhase (i.testBit s) (i.testBit d) (st.testBit s) (st.testBit d)).testBit 1)
          || (decide (k = d) &&
            (axisPhase (i.testBit s) (i.testBit d) (st.testBit s) (st.testBit d)).testBit 0))) := by
  rw [setPhase_eq i st r s d hs hd, testBit_put _ _ _ _ hd, testBit_put _ _ _ _ hs,
    testBit_clear _ _ _ hd, testBit_clear _ _ _ hs]
  by_cases h8 : k < 8 <;> simp [h8]

theorem getMultiAxisPhase_testBit (i st k : Nat) :
    (getMultiAxisPhase i st).testBit k =
      if k = 2 then (axisPhase (i.testBit 2) (i.testBit 5) (st.testBit 2) (st.testBit 5)).testBit 1
      else if k = 5 then
        (axisPhase (i.testBit 2) (i.testBit 5) (st.testBit 2) (st.testBit 5)).testBit 0
      else if k = 3 then
        (axisPhase (i.testBit 3) (i.testBit 6) (st.testBit 3) (st.testBit 6)).testBit 1
      else if k = 6 then
        (axisPhase (i.testBit 3) (i.testBit 6) (st.testBit 3) (st.testBit 6)).testBit 0
      else if k = 4 then
        (axisPhase (i.testBit 4) (i.testBit 7) (st.testBit 4) (st.testBit 7)).testBit 1
      else if k = 7 then
        (axisPhase (i.testBit 4) (i.testBit 7) (st.testBit 4) (st.testBit 7)).testBit 0
      else (decide (k < 2) && i.testBit k) := by
  simp only [getMultiAxisPhase, X_STEP_BIT, X_DIRECTION_BIT, Y_STEP_BIT, Y_DIRECTION_BIT,
    Z_STEP_BIT, Z_DIRECTION_BIT]
  rw [setPhase_testBit _ _ _ 4 7 k (by decide) (by decide),
    setPhase_testBit _ _ _ 3 6 k (by decide) (by decide),
    setPhase_testBit _ _ _ 2 5 k (by decide) (by decide)]
  by_cases h2 : k = 2
  · subst h2; simp
  by_cases h5 : k = 5
  · subst h5; simp
  by_cases h3 : k = 3
  · subst h3; simp
  by_cases h6 : k = 6
  · subst h6; simp
  by_cases h4 : k = 4
  · subst h4; simp
  by_cases h7 : k = 7
  · subst h7; simp
  simp only [h2, h5, h3, h6, h4, h7, if_false, decide_False, Bool.false_and, Bool.or_false,
    Bool.not_false, Bool.and_true]
  by_cases h8 : k < 8
  · have hk : k < 2 := by omega
    simp [h8, hk]
  · have hk : ¬ k < 2 := by omega
    simp [h8, hk]

/-! ## Consecutive calls -/

theorem toHbridgeCalls_cons (c p : Nat) (ps : List Nat) :
    (toHbridgeCalls c (p :: ps)).1
      = getMultiAxisPhase p c :: (toHbridgeCalls (getMultiAxisPhase p c) ps).1 := by
  simp only [toHbridgeCalls, toHbridge]

theorem toHbridgeCalls_replicate (p : Nat) :
    ∀ (n c : Nat), (toHbridgeCalls c (List.replicate (n + 1) p)).1[n]?
      = some ((getMultiAxisPhase p)^[n + 1] c) := by
  intro n
  induction n with
  | zero =>
    intro c
    rw [List.replicate_succ, toHbridgeCalls_cons, List.getElem?_cons_zero,
      Function.iterate_succ_apply, Function.iterate_zero_apply]
  | succ n ih =>
    intro c
    rw [List.replicate_succ, toHbridgeCalls_cons, List.getElem?_cons_succ, ih,
      Function.iterate_succ_apply (getMultiAxisPhase p) (n + 1) c]

theorem iterate_four_cycle (f : Nat → Nat) (c0 c1 c2 c3 : Nat)
    (h0 : f c0 = c1) (h1 : f c1 = c2) (h2 : f c2 = c3) (h3 : f c3 = c0) (k : Nat) :
    some (f^[k] c0) = [c0, c1, c2, c3][k % 4]? := by
  induction k with
  | zero => rfl
  | succ k ih =>
    rw [Function.iterate_succ_apply']
    have hlt : k % 4 < 4 := Nat.mod_lt _ (by decide)
    have hk : k % 4 = 0 ∨ k % 4 = 1 ∨ k % 4 = 2 ∨ k % 4 = 3 := by omega
    rcases hk with hk | hk | hk | hk
    · have hs : (k + 1) % 4 = 1 := by omega
      rw [hk] at ih
      rw [hs]
      simp only [List.getElem?_cons_zero, Option.some.injEq] at ih
      simp [ih, h0]
    · have hs : (k + 1) % 4 = 2 := by omega
      rw [hk] at ih
      rw [hs]
      simp only [List.getElem?_cons_succ, List.getElem?_cons_zero, Option.some.injEq] at ih
      simp [ih, h1]
    · have hs : (k + 1) % 4 = 3 := by omega
      rw [hk] at ih
      rw [hs]
      simp only [List.getElem?_cons_succ, List.getElem?_cons_zero, Option.some.injEq] at ih
      simp [ih, h2]
    · have hs : (k + 1) % 4 = 0 := by omega
      rw [hk] at ih
      rw [hs]
      simp only [List.getElem?_cons_succ, List.getElem?_cons_zero, Option.some.injEq] at ih
      simp [ih, h3]

theorem toHbridgeCalls_four_cycle (p c0 c1 c2 c3 : Nat)
    (h0 : getMultiAxisPhase p c0 = c1) (h1 : getMultiAxisPhase p c1 = c2)
    (h2 : getMultiAxisPhase p c2 = c3) (h3 : getMultiAxisPhase p c3 = c0) (n : Nat) :
    (toHbridgeCalls c0 (List.replicate (n + 1) p)).1[n]? = [c1, c2, c3, c0][n % 4]? := by
  rw [toHbridgeCalls_replicate, Function.iterate_succ_apply, ← h0]
  have := iterate_four_cycle (getMultiAxisPhase p) c1 c2 c3 c0 h1 h2 h3 h0 n
  rw [← h0] at this
  exact this

/-! ## The single-axis stepper -/

theorem getNextIndex_cases (c : Int) :
    getNextIndex c = 0 ∨ getNextIndex c = 1 ∨ getNextIndex c = 2 ∨ getNextIndex c = 3 := by
  simp only [getNextIndex, AMOUNT_OF_PHASES, PHASES, List.length_cons, List.length_nil]
  split
  · exact Or.inl rfl
  · rename_i h
    push_cast at h
    omega

theorem getNextIndex_of_range (c : Int) (hlo : CInt.INT_MIN ≤ c) (hhi : c ≤ CInt.INT_MAX) :
    getNextIndex c = if 0 ≤ c ∧ c ≤ 2 then c + 1 else 0 := by
  simp only [CInt.INT_MIN, CInt.INT_MAX, CInt.INT_BITS] at hlo hhi
  simp only [getNextIndex, AMOUNT_OF_PHASES, PHASES, List.length_cons, List.length_nil, CInt.add,
    CInt.wrap, CInt.INT_BITS]
  push_cast
  split <;> split <;> omega

theorem toUInt8_lt (x : Int) : CInt.toUInt8 x < 256 := by
  simp only [CInt.toUInt8]
  omega

theorem getMultiAxisPhase_lt (input state : Nat) : getMultiAxisPhase input state < 256 := by
  simp only [getMultiAxisPhase, setPhase]
  exact toUInt8_lt _

theorem bitVal_injective (a b : Bool) (h : bitVal a = bitVal b) : a = b := by
  cases a <;> cases b <;> simp_all [bitVal]

theorem testBit_eq_of_bitAt_eq (x y j : Nat) (hj : j < 31) (h : bitAt x j = bitAt y j) :
    x.testBit j = y.testBit j := by
  rw [bitAt_eq x j hj, bitAt_eq y j hj] at h
  exact bitVal_injective _ _ h

/-! ## The claims -/

/-- C1: from the stored state `currentPhase = 0`, the `(n+1)`-th consecutive
call `toHbridge(28)` returns the element at position `n mod 4` of
`[28, 252, 224, 0]`, for every `n`. -/
theorem toHbridge_forward_cycle (n : Nat) :
    (toHbridgeCalls currentPhase (List.replicate (n + 1) 28)).1[n]?
      = [28, 252, 224, 0][n % 4]? :=
  toHbridgeCalls_four_cycle 28 0 28 252 224 (by decide!) (by decide!) (by decide!) (by decide!) n

/-- C2: from the stored state `currentPhase = 0`, the `(n+1)`-th consecutive
call `toHbridge(92)` returns the element at position `n mod 4` of
`[84, 252, 168, 0]`, for every `n`. -/
theorem toHbridge_mixed_cycle (n : Nat) :
    (toHbridgeCalls currentPhase (List.replicate (n + 1) 92)).1[n]?
      = [84, 252, 168, 0][n % 4]? :=
  toHbridgeCalls_four_cycle 92 0 84 252 168 (by decide!) (by decide!) (by decide!) (by decide!) n

/-- C3: `getMultiAxisPhase` reproduces the four reference fixtures of
`shouldConvertMultiaxisPhases`. -/
theorem getMultiAxisPhase_fixtures :
    getMultiAxisPhase 8 220 = 64 ∧ getMultiAxisPhase 44 216 = 96
      ∧ getMultiAxisPhase 152 48 = 8 ∧ getMultiAxisPhase 252 200 = 184 := by
  decide!

/-- C4: for every `currentIndex`, the phases `getNextPhase(1, 1, currentIndex)`
and `getNextPhase(1, 0, currentIndex)` lie in `0..3` and their XOR is `3`; the
pairs for the indices 0, 1, 2, 3 are (1,2), (3,0), (2,1), (0,3). -/
theorem getNextPhase_direction_complement (currentIndex : Int) :
    getNextPhase 1 1 currentIndex ^^^ getNextPhase 1 0 currentIndex = 3
      ∧ getNextPhase 1 1 currentIndex < 4 ∧ getNextPhase 1 0 currentIndex < 4
      ∧ (getNextPhase 1 1 0, getNextPhase 1 0 0) = (1, 2)
      ∧ (getNextPhase 1 1 1, getNextPhase 1 0 1) = (3, 0)
      ∧ (getNextPhase 1 1 2, getNextPhase 1 0 2) = (2, 1)
      ∧ (getNextPhase 1 1 3, getNextPhase 1 0 3) = (0, 3) := by
  refine ⟨?_, ?_, ?_, by decide, by decide, by decide, by decide⟩ <;>
    rcases getNextIndex_cases currentIndex with h | h | h | h <;>
    simp only [getNextPhase, h] <;> decide

/-- C5: when the step flag is `0`, `getNextPhase` returns `0` for every
direction and every current index. -/
theorem getNextPhase_no_step (dir currentIndex : Int) : getNextPhase 0 dir currentIndex = 0 := by
  simp [getNextPhase]

/-- C6: for every `int` value `currentIndex`, `getNextIndex` returns
`currentIndex + 1` when `0 ≤ currentIndex ≤ 2`, and `0` when `currentIndex = 3`,
when `currentIndex ≥ 4` and when `currentIndex < 0`; so 4, 100, -1 and -10 give
`0`, which for 4 differs from the remainder of `4 + 1` modulo `4`. -/
theorem getNextIndex_clamp (currentIndex : Int)
    (hmin : CInt.INT_MIN ≤ currentIndex) (hmax : currentIndex ≤ CInt.INT_MAX) :
    (0 ≤ currentIndex ∧ currentIndex ≤ 2 → getNextIndex currentIndex = currentIndex + 1)
      ∧ (currentIndex = 3 → getNextIndex currentIndex = 0)
      ∧ (4 ≤ currentIndex → getNextIndex currentIndex = 0)
      ∧ (currentIndex < 0 → getNextIndex currentIndex = 0)
      ∧ getNextIndex 4 = 0 ∧ getNextIndex 100 = 0
      ∧ getNextIndex (-1) = 0 ∧ getNextIndex (-10) = 0
      ∧ getNextIndex 4 ≠ (4 + 1) % 4 := by
  rw [getNextIndex_of_range currentIndex hmin hmax]
  refine ⟨?_, ?_, ?_, ?_, by decide, by decide, by decide, by decide, by decide⟩
  · intro h; rw [if_pos h]
  · intro h; rw [if_neg (by omega)]
  · intro h; rw [if_neg (by omega)]
  · intro h; rw [if_neg (by omega)]

/-- Witness of C6 at the greatest `int`, where `currentIndex + 1` overflows. -/
theorem getNextIndex_clamp_witness :
    CInt.INT_MIN ≤ (2147483647 : Int) ∧ (2147483647 : Int) ≤ CInt.INT_MAX
      ∧ getNextIndex 2147483647 = 0 :=
  ⟨by decide, by decide,
    (getNextIndex_clamp 2147483647 (by decide) (by decide)).2.2.1 (by decide)⟩

/-- C7: `PHASES` and `PHASE_INDEX` are mutually inverse permutations of
`{0, 1, 2, 3}`, with `PHASES = [0, 1, 3, 2]` and `PHASE_INDEX` mapping
0, 1, 3, 2 to 0, 1, 2, 3. -/
theorem phase_tables_inverse :
    (∀ i : Fin 4, tableAt PHASES (i.val : Int) < 4
        ∧ tableAt PHASE_INDEX ((tableAt PHASES (i.val : Int) : Nat) : Int) = i.val)
      ∧ (∀ p : Fin 4, tableAt PHASE_INDEX (p.val : Int) < 4
        ∧ tableAt PHASES ((tableAt PHASE_INDEX (p.val : Int) : Nat) : Int) = p.val)
      ∧ PHASES = [0, 1, 3, 2]
      ∧ tableAt PHASE_INDEX 0 = 0 ∧ tableAt PHASE_INDEX 1 = 1
      ∧ tableAt PHASE_INDEX 3 = 2 ∧ tableAt PHASE_INDEX 2 = 3 := by
  decide

/-- C8: the bits 0 and 1 of `getMultiAxisPhase(input, state)`, the two bits
outside the six axis positions, are those of `input`, whatever `state` is. -/
theorem getMultiAxisPhase_passthrough (input state : Nat) :
    getMultiAxisPhase input state &&& 3 = input &&& 3 := by
  apply Nat.eq_of_testBit_eq
  intro k
  rw [Nat.testBit_and, Nat.testBit_and, getMultiAxisPhase_testBit,
    show (3 : Nat) = 2 ^ 2 - 1 by rfl, Nat.testBit_two_pow_sub_one]
  by_cases hk : k < 2
  · have h2 : k ≠ 2 := by omega
    have h3 : k ≠ 3 := by omega
    have h4 : k ≠ 4 := by omega
    have h5 : k ≠ 5 := by omega
    have h6 : k ≠ 6 := by omega
    have h7 : k ≠ 7 := by omega
    simp [hk, h2, h3, h4, h5, h6, h7]
  · simp [hk]

/-- C9: when two (input, state) pairs agree on the step and direction bit of
an axis, in the input and in the state, `getMultiAxisPhase` gives the same two
output bits at the positions of that axis, whatever the other bits are. -/
theorem getMultiAxisPhase_axis_independent (input1 state1 input2 state2 : Nat)
    (slot : Nat × Nat) (hslot : slot ∈ axisSlots)
    (hstep : bitAt input1 slot.1 = bitAt input2 slot.1)
    (hdir : bitAt input1 slot.2 = bitAt input2 slot.2)
    (hstateStep : bitAt state1 slot.1 = bitAt state2 slot.1)
    (hstateDir : bitAt state1 slot.2 = bitAt state2 slot.2) :
    bitAt (getMultiAxisPhase input1 state1) slot.1
        = bitAt (getMultiAxisPhase input2 state2) slot.1
      ∧ bitAt (getMultiAxisPhase input1 state1) slot.2
        = bitAt (getMultiAxisPhase input2 state2) slot.2 := by
  simp only [axisSlots, X_STEP_BIT, X_DIRECTION_BIT, Y_STEP_BIT, Y_DIRECTION_BIT, Z_STEP_BIT,
    Z_DIRECTION_BIT, List.mem_cons, List.mem_singleton, List.not_mem_nil, or_false] at hslot
  rcases hslot with h | h | h <;> subst h <;>
    simp only [] at hstep hdir hstateStep hstateDir ⊢ <;>
    have e1 := testBit_eq_of_bitAt_eq _ _ _ (by decide) hstep <;>
    have e2 := testBit_eq_of_bitAt_eq _ _ _ (by decide) hdir <;>
    have e3 := testBit_eq_of_bitAt_eq _ _ _ (by decide) hstateStep <;>
    have e4 := testBit_eq_of_bitAt_eq _ _ _ (by decide) hstateDir <;>
    rw [bitAt_eq _ _ (by decide), bitAt_eq _ _ (by decide), bitAt_eq _ _ (by decide),
      bitAt_eq _ _ (by decide), getMultiAxisPhase_testBit, getMultiAxisPhase_testBit,
      getMultiAxisPhase_testBit, getMultiAxisPhase_testBit] <;>
    simp [e1, e2, e3, e4]

/-- Witness of C9 on the Y axis: the pairs (44, 216) and (8, 220) differ on the
X axis and agree on the Y slot. -/
theorem getMultiAxisPhase_axis_independent_witness :
    bitAt (getMultiAxisPhase 44 216) 3 = bitAt (getMultiAxisPhase 8 220) 3
      ∧ bitAt (getMultiAxisPhase 44 216) 6 = bitAt (getMultiAxisPhase 8 220) 6 :=
  getMultiAxisPhase_axis_independent 44 216 8 220 (3, 6) (by decide)
    (by decide) (by decide) (by decide) (by decide)

/-- C10: for every pattern and every stored state `c`, `toHbridge` returns
`getMultiAxisPhase(stepDirPattern, c)`, stores exactly that byte as the new
`currentPhase`, and the byte is below 256. -/
theorem toHbridge_spec (stepDirPattern c : Nat) :
    (toHbridge stepDirPattern c).1 = getMultiAxisPhase stepDirPattern c
      ∧ (toHbridge stepDirPattern c).2 = (toHbridge stepDirPattern c).1
      ∧ (toHbridge stepDirPattern c).1 < 256 := by
  simp only [toHbridge, true_and]
  exact getMultiAxisPhase_lt stepDirPattern c

/-! ## Further lemmas on an axis slot -/

theorem bitVal_eq_zero (b : Bool) : bitVal b = 0 ↔ b = false := by
  cases b <;> simp [bitVal]

theorem bitVal_eq_one (b : Bool) : bitVal b = 1 ↔ b = true := by
  cases b <;> simp [bitVal]

theorem axisPhase_no_step (b c e : Bool) : axisPhase false b c e = 0 := by
  simp [axisPhase, bitVal, getNextPhase]

theorem axisPhase_lt (a b c e : Bool) : axisPhase a b c e < 4 := by
  cases a <;> cases b <;> cases c <;> cases e <;> decide

theorem slotPhase_eq (x s d : Nat) (hs : s < 31) (hd : d < 31) :
    slotPhase x s d = ((2 * (x.testBit s).toNat + (x.testBit d).toNat : Nat) : Int) := by
  rw [slotPhase, bitAt_eq x s hs, bitAt_eq x d hd]
  cases x.testBit s <;> cases x.testBit d <;> decide

theorem axisBits_getMultiAxisPhase (i st : Nat) (slot : Nat × Nat) (hslot : slot ∈ axisSlots) :
    axisBits (getMultiAxisPhase i st) slot
      = axisStep (i.testBit slot.1) (i.testBit slot.2) (axisBits st slot) := by
  simp only [axisSlots, X_STEP_BIT, X_DIRECTION_BIT, Y_STEP_BIT, Y_DIRECTION_BIT, Z_STEP_BIT,
    Z_DIRECTION_BIT, List.mem_cons, List.mem_singleton, List.not_mem_nil, or_false] at hslot
  rcases hslot with h | h | h <;> subst h <;>
    simp [axisBits, axisStep, getMultiAxisPhase_testBit]

theorem testBit_false_of_bitAt_eq_zero (x j : Nat) (hj : j < 31) (h : bitAt x j = 0) :
    x.testBit j = false := by
  rw [bitAt_eq x j hj] at h
  exact (bitVal_eq_zero _).1 h

theorem testBit_true_of_bitAt_eq_one (x j : Nat) (hj : j < 31) (h : bitAt x j = 1) :
    x.testBit j = true := by
  rw [bitAt_eq x j hj] at h
  exact (bitVal_eq_one _).1 h

theorem invertIfNecessary_zero_byte :
    ∀ q : Fin 256, invertIfNecessary 0 q.val = 255 - q.val := by
  decide!

/-! ## The claims, continued -/

/-- C11: when the three step bits (bits 2, 3, 4) of the input are clear,
`getMultiAxisPhase(input, state)` has its six axis bits cleared and equals
`input & 3`, whatever the direction bits and the state are; and
`getMultiAxisPhase(0, 0) = 0`. -/
theorem getMultiAxisPhase_no_step (input state : Nat)
    (hx : bitAt input X_STEP_BIT = 0) (hy : bitAt input Y_STEP_BIT = 0)
    (hz : bitAt input Z_STEP_BIT = 0) :
    getMultiAxisPhase input state = input &&& 3
      ∧ getMultiAxisPhase input state &&& 252 = 0
      ∧ getMultiAxisPhase 0 0 = 0 := by
  have tx := testBit_false_of_bitAt_eq_zero input 2 (by decide) hx
  have ty := testBit_false_of_bitAt_eq_zero input 3 (by decide) hy
  have tz := testBit_false_of_bitAt_eq_zero input 4 (by decide) hz
  have main : getMultiAxisPhase input state = input &&& 3 := by
    apply Nat.eq_of_testBit_eq
    intro k
    rw [getMultiAxisPhase_testBit, tx, ty, tz, Nat.testBit_and,
      show (3 : Nat) = 2 ^ 2 - 1 by rfl, Nat.testBit_two_pow_sub_one]
    simp only [axisPhase_no_step, Nat.zero_testBit]
    by_cases h2 : k = 2
    · subst h2; simp
    by_cases h5 : k = 5
    · subst h5; simp
    by_cases h3 : k = 3
    · subst h3; simp
    by_cases h6 : k = 6
    · subst h6; simp
    by_cases h4 : k = 4
    · subst h4; simp
    by_cases h7 : k = 7
    · subst h7; simp
    simp [h2, h5, h3, h6, h4, h7, Bool.and_comm]
  refine ⟨main, ?_, by decide!⟩
  rw [main, Nat.and_assoc, show (3 : Nat) &&& 252 = 0 by decide, Nat.and_zero]

/-- Witness of C11: input 227 has the three direction bits and bits 0, 1 set
and no step bit; from state 252 the output is 3. -/
theorem getMultiAxisPhase_no_step_witness :
    bitAt 227 X_STEP_BIT = 0 ∧ bitAt 227 Y_STEP_BIT = 0 ∧ bitAt 227 Z_STEP_BIT = 0
      ∧ getMultiAxisPhase 227 252 = 3 :=
  ⟨by decide, by decide, by decide,
    (getMultiAxisPhase_no_step 227 252 (by decide) (by decide) (by decide)).1⟩

theorem slotNextPhase_eq (i st s d : Nat) (hs : s < 31) (hd : d < 31) :
    slotNextPhase i st s d
      = axisPhase (i.testBit s) (i.testBit d) (st.testBit s) (st.testBit d) := by
  simp only [slotNextPhase, slotPhase, axisPhase, bitAt_eq _ _ hs, bitAt_eq _ _ hd]

theorem setPhase_lt (i st r s d : Nat) : setPhase i st r s d < 256 := by
  simp only [setPhase]
  exact toUInt8_lt _

theorem two_bits_eq (p : Nat) (hp : p < 4) :
    2 * (p.testBit 1).toNat + (p.testBit 0).toNat = p := by
  interval_cases p <;> decide

/-- C12: for distinct bit positions below 8, `setPhase` returns `result` with
bit `stepBitPos` replaced by bit 1 of `p` and bit `directionBitPos` replaced
by bit 0 of `p`, the other bits unchanged, where `p` is the phase
`getNextPhase` gives for the input bits and the index of the state bits of
the slot; reading the slot back as `(stepBit << 1) | dirBit` gives `p`. -/
theorem setPhase_spec (inputPattern statePattern result stepBitPos directionBitPos : Nat)
    (hr : result < 256) (hs : stepBitPos < 8) (hd : directionBitPos < 8)
    (hne : stepBitPos ≠ directionBitPos) :
    bitAt (setPhase inputPattern statePattern result stepBitPos directionBitPos) stepBitPos
        = bitAt (slotNextPhase inputPattern statePattern stepBitPos directionBitPos) 1
      ∧ bitAt (setPhase inputPattern statePattern result stepBitPos directionBitPos)
          directionBitPos
        = bitAt (slotNextPhase inputPattern statePattern stepBitPos directionBitPos) 0
      ∧ (∀ k : Nat, k ≠ stepBitPos → k ≠ directionBitPos →
          (setPhase inputPattern statePattern result stepBitPos directionBitPos).testBit k
            = result.testBit k)
      ∧ slotPhase (setPhase inputPattern statePattern result stepBitPos directionBitPos)
          stepBitPos directionBitPos
        = ((slotNextPhase inputPattern statePattern stepBitPos directionBitPos : Nat) : Int) := by
  have hs31 : stepBitPos < 31 := by omega
  have hd31 : directionBitPos < 31 := by omega
  have hdne : directionBitPos ≠ stepBitPos := fun h => hne h.symm
  have hb1 : (setPhase inputPattern statePattern result stepBitPos directionBitPos).testBit
      stepBitPos
        = (slotNextPhase inputPattern statePattern stepBitPos directionBitPos).testBit 1 := by
    rw [setPhase_testBit _ _ _ _ _ _ hs31 hd31, slotNextPhase_eq _ _ _ _ hs31 hd31]
    simp [hs, hne]
  have hb0 : (setPhase inputPattern statePattern result stepBitPos directionBitPos).testBit
      directionBitPos
        = (slotNextPhase inputPattern statePattern stepBitPos directionBitPos).testBit 0 := by
    rw [setPhase_testBit _ _ _ _ _ _ hs31 hd31, slotNextPhase_eq _ _ _ _ hs31 hd31]
    simp [hd, hdne]
  have hp : slotNextPhase inputPattern statePattern stepBitPos directionBitPos < 4 := by
    rw [slotNextPhase_eq _ _ _ _ hs31 hd31]
    exact axisPhase_lt _ _ _ _
  refine ⟨?_, ?_, ?_, ?_⟩
  · rw [bitAt_eq _ _ hs31, bitAt_eq _ 1 (by decide), hb1]
  · rw [bitAt_eq _ _ hd31, bitAt_eq _ 0 (by decide), hb0]
  · intro k hk1 hk2
    rw [setPhase_testBit _ _ _ _ _ _ hs31 hd31]
    by_cases h8 : k < 8
    · simp [h8, hk1, hk2]
    · have hlt : result < 2 ^ k :=
        lt_of_lt_of_le hr (by
          calc (256 : Nat) = 2 ^ 8 := by rfl
            _ ≤ 2 ^ k := Nat.pow_le_pow_right (by decide) (by omega))
      simp [h8, Nat.testBit_lt_two_pow hlt]
  · rw [slotPhase_eq _ _ _ hs31 hd31, hb1, hb0, two_bits_eq _ hp]

/-- Witness of C12: the Y slot (3, 6) of the fixture input 8, state 220, with
result 8; the phase is 1, the output 64. -/
theorem setPhase_spec_witness :
    slotNextPhase 8 220 3 6 = 1 ∧ setPhase 8 220 8 3 6 = 64
      ∧ slotPhase (setPhase 8 220 8 3 6) 3 6 = ((slotNextPhase 8 220 3 6 : Nat) : Int) :=
  ⟨by decide!, by decide!,
    (setPhase_spec 8 220 8 3 6 (by decide) (by decide) (by decide) (by decide)).2.2.2⟩

theorem axisSlots_lt (slot : Nat × Nat) (hslot : slot ∈ axisSlots) :
    slot.1 < 8 ∧ slot.2 < 8 ∧ slot.1 ≠ slot.2 := by
  simp only [axisSlots, X_STEP_BIT, X_DIRECTION_BIT, Y_STEP_BIT, Y_DIRECTION_BIT, Z_STEP_BIT,
    Z_DIRECTION_BIT, List.mem_cons, List.mem_singleton, List.not_mem_nil, or_false] at hslot
  rcases hslot with h | h | h <;> subst h <;> decide

theorem testBit_step_getMultiAxisPhase (i st : Nat) (slot : Nat × Nat)
    (hslot : slot ∈ axisSlots) :
    (getMultiAxisPhase i st).testBit slot.1
      = (axisPhase (i.testBit slot.1) (i.testBit slot.2)
          (st.testBit slot.1) (st.testBit slot.2)).testBit 1 := by
  have h := congrArg Prod.fst (axisBits_getMultiAxisPhase i st slot hslot)
  simpa only [axisBits, axisStep] using h

theorem testBit_dir_getMultiAxisPhase (i st : Nat) (slot : Nat × Nat)
    (hslot : slot ∈ axisSlots) :
    (getMultiAxisPhase i st).testBit slot.2
      = (axisPhase (i.testBit slot.1) (i.testBit slot.2)
          (st.testBit slot.1) (st.testBit slot.2)).testBit 0 := by
  have h := congrArg Prod.snd (axisBits_getMultiAxisPhase i st slot hslot)
  simpa only [axisBits, axisStep] using h

theorem slotPhase_getMultiAxisPhase (i st : Nat) (slot : Nat × Nat) (hslot : slot ∈ axisSlots) :
    slotPhase (getMultiAxisPhase i st) slot.1 slot.2
      = ((axisPhase (i.testBit slot.1) (i.testBit slot.2)
          (st.testBit slot.1) (st.testBit slot.2) : Nat) : Int) := by
  obtain ⟨h1, h2, _⟩ := axisSlots_lt slot hslot
  rw [slotPhase_eq _ _ _ (by omega) (by omega), testBit_step_getMultiAxisPhase i st slot hslot,
    testBit_dir_getMultiAxisPhase i st slot hslot, two_bits_eq _ (axisPhase_lt _ _ _ _)]

/-- C13: after a `toHbridge` call whose input has the step bit of an axis
clear, the two stored bits of that axis are 00, which `PHASE_INDEX` maps to
index 0; the next call with the step bit of the axis set then gives the axis
phase 1 when its direction bit is set and 2 when it is clear, whatever the
stored state was before the idle call. -/
theorem toHbridge_idle_resets_axis (c idle next : Nat) (slot : Nat × Nat)
    (hslot : slot ∈ axisSlots) (hidle : bitAt idle slot.1 = 0) (hnext : bitAt next slot.1 = 1) :
    bitAt (toHbridge idle c).2 slot.1 = 0 ∧ bitAt (toHbridge idle c).2 slot.2 = 0
      ∧ tableAt PHASE_INDEX (slotPhase (toHbridge idle c).2 slot.1 slot.2) = 0
      ∧ (bitAt next slot.2 = 1 →
          slotPhase (toHbridge next (toHbridge idle c).2).1 slot.1 slot.2 = 1)
      ∧ (bitAt next slot.2 = 0 →
          slotPhase (toHbridge next (toHbridge idle c).2).1 slot.1 slot.2 = 2) := by
  obtain ⟨h1, h2, _⟩ := axisSlots_lt slot hslot
  have h1b : slot.1 < 31 := by omega
  have h2b : slot.2 < 31 := by omega
  have ti := testBit_false_of_bitAt_eq_zero idle slot.1 h1b hidle
  have tn := testBit_true_of_bitAt_eq_one next slot.1 h1b hnext
  have e1 : (getMultiAxisPhase idle c).testBit slot.1 = false := by
    rw [testBit_step_getMultiAxisPhase idle c slot hslot, ti, axisPhase_no_step]
    rfl
  have e2 : (getMultiAxisPhase idle c).testBit slot.2 = false := by
    rw [testBit_dir_getMultiAxisPhase idle c slot hslot, ti, axisPhase_no_step]
    rfl
  simp only [toHbridge]
  refine ⟨?_, ?_, ?_, ?_, ?_⟩
  · rw [bitAt_eq _ _ h1b, e1]; rfl
  · rw [bitAt_eq _ _ h2b, e2]; rfl
  · rw [slotPhase_eq _ _ _ h1b h2b, e1, e2]; decide
  · intro hdir
    have td := testBit_true_of_bitAt_eq_one next slot.2 h2b hdir
    rw [slotPhase_getMultiAxisPhase next _ slot hslot, tn, td, e1, e2]
    decide
  · intro hdir
    have td := testBit_false_of_bitAt_eq_zero next slot.2 h2b hdir
    rw [slotPhase_getMultiAxisPhase next _ slot hslot, tn, td, e1, e2]
    decide

/-- Witness of C13 on the X axis (2, 5): from the stored byte 252 the idle
input 0 clears the slot, and the input 4 (step set, direction clear) then
gives the axis phase 2. -/
theorem toHbridge_idle_resets_axis_witness :
    bitAt 0 2 = 0 ∧ bitAt 4 2 = 1 ∧ bitAt 4 5 = 0
      ∧ slotPhase (toHbridge 4 (toHbridge 0 252).2).1 2 5 = 2 :=
  ⟨by decide, by decide, by decide,
    (toHbridge_idle_resets_axis 252 0 4 (2, 5) (by decide) (by decide) (by decide)).2.2.2.2
      (by decide)⟩

/-- C16: for every index `i` in 0..3 the forward phase has index
`(i + 1) mod 4` and the reverse phase has index `(i + 3) mod 4`; and for every
state and axis, a call with the step and direction bit of the axis set followed
by a call with the step bit set and the direction bit clear, or the two calls
in the opposite order, gives back the two state bits of the axis. -/
theorem reverse_step_undoes_forward_step (state forward reverse : Nat) (slot : Nat × Nat)
    (hslot : slot ∈ axisSlots)
    (hfs : bitAt forward slot.1 = 1) (hfd : bitAt forward slot.2 = 1)
    (hrs : bitAt reverse slot.1 = 1) (hrd : bitAt reverse slot.2 = 0) :
    (∀ i : Fin 4,
        tableAt PHASE_INDEX ((getNextPhase 1 1 (i.val : Int) : Nat) : Int) = (i.val + 1) % 4
          ∧ tableAt PHASE_INDEX ((getNextPhase 1 0 (i.val : Int) : Nat) : Int)
            = (i.val + 3) % 4)
      ∧ bitAt (getMultiAxisPhase reverse (getMultiAxisPhase forward state)) slot.1
        = bitAt state slot.1
      ∧ bitAt (getMultiAxisPhase reverse (getMultiAxisPhase forward state)) slot.2
        = bitAt state slot.2
      ∧ bitAt (getMultiAxisPhase forward (getMultiAxisPhase reverse state)) slot.1
        = bitAt state slot.1
      ∧ bitAt (getMultiAxisPhase forward (getMultiAxisPhase reverse state)) slot.2
        = bitAt state slot.2 := by
  obtain ⟨h1, h2, _⟩ := axisSlots_lt slot hslot
  have h1b : slot.1 < 31 := by omega
  have h2b : slot.2 < 31 := by omega
  have tfs := testBit_true_of_bitAt_eq_one forward slot.1 h1b hfs
  have tfd := testBit_true_of_bitAt_eq_one forward slot.2 h2b hfd
  have trs := testBit_true_of_bitAt_eq_one reverse slot.1 h1b hrs
  have trd := testBit_false_of_bitAt_eq_zero reverse slot.2 h2b hrd
  refine ⟨by decide, ?_, ?_, ?_, ?_⟩
  all_goals
    simp only [bitAt_eq _ _ h1b, bitAt_eq _ _ h2b,
      testBit_step_getMultiAxisPhase _ _ slot hslot,
      testBit_dir_getMultiAxisPhase _ _ slot hslot, tfs, tfd, trs, trd]
    generalize state.testBit slot.1 = c
    generalize state.testBit slot.2 = e
    cases c <;> cases e <;> decide

/-- Witness of C16 on the Y axis (3, 6): from the state 216, the input 72 (step
and direction set) followed by the input 8 (step set, direction clear) gives
back both slot bits. -/
theorem reverse_step_undoes_forward_step_witness :
    bitAt 72 3 = 1 ∧ bitAt 72 6 = 1 ∧ bitAt 8 3 = 1 ∧ bitAt 8 6 = 0
      ∧ bitAt (getMultiAxisPhase 8 (getMultiAxisPhase 72 216)) 3 = bitAt 216 3
      ∧ bitAt (getMultiAxisPhase 8 (getMultiAxisPhase 72 216)) 6 = bitAt 216 6 :=
  ⟨by decide, by decide, by decide, by decide,
    (reverse_step_undoes_forward_step 216 72 8 (3, 6) (by decide)
      (by decide) (by decide) (by decide) (by decide)).2.1,
    (reverse_step_undoes_forward_step 216 72 8 (3, 6) (by decide)
      (by decide) (by decide) (by decide) (by decide)).2.2.1⟩

/-- C17: for every state, every input and every axis whose step bit is set in
the input, the two bits of the axis in `getMultiAxisPhase(input, state)` differ
from the two bits of the axis in `state` in exactly one position, whatever the
direction bit is. -/
theorem step_changes_exactly_one_bit (input state : Nat) (slot : Nat × Nat)
    (hslot : slot ∈ axisSlots) (hstep : bitAt input slot.1 = 1) :
    (bitAt (getMultiAxisPhase input state) slot.1 ≠ bitAt state slot.1
        ∧ bitAt (getMultiAxisPhase input state) slot.2 = bitAt state slot.2)
      ∨ (bitAt (getMultiAxisPhase input state) slot.1 = bitAt state slot.1
        ∧ bitAt (getMultiAxisPhase input state) slot.2 ≠ bitAt state slot.2) := by
  obtain ⟨h1, h2, _⟩ := axisSlots_lt slot hslot
  have h1b : slot.1 < 31 := by omega
  have h2b : slot.2 < 31 := by omega
  have ts := testBit_true_of_bitAt_eq_one input slot.1 h1b hstep
  simp only [bitAt_eq _ _ h1b, bitAt_eq _ _ h2b,
    testBit_step_getMultiAxisPhase _ _ slot hslot,
    testBit_dir_getMultiAxisPhase _ _ slot hslot, ts]
  generalize input.testBit slot.2 = b
  generalize state.testBit slot.1 = c
  generalize state.testBit slot.2 = e
  cases b <;> cases c <;> cases e <;> decide

/-- Witness of C17 on the Z axis (4, 7): input 152 steps Z forward from the state
48, where the Z slot holds phase 2; only the step-position bit changes. -/
theorem step_changes_exactly_one_bit_witness :
    bitAt 152 4 = 1
      ∧ ((bitAt (getMultiAxisPhase 152 48) 4 ≠ bitAt 48 4
          ∧ bitAt (getMultiAxisPhase 152 48) 7 = bitAt 48 7)
        ∨ (bitAt (getMultiAxisPhase 152 48) 4 = bitAt 48 4
          ∧ bitAt (getMultiAxisPhase 152 48) 7 ≠ bitAt 48 7)) :=
  ⟨by decide, step_changes_exactly_one_bit 152 48 (4, 7) (by decide) (by decide)⟩

/-- C15: for every `currentIndex`, `getNextIndex` returns a value in 0..3, an
index inside `PHASES`; and for every state and bit positions in 0..7, `bitAt`
returns 0 or 1 and `(bitAt(state, stepBitPos) << 1) | bitAt(state,
directionBitPos)` lies in 0..3, inside `PHASE_INDEX`, whose entry there is an
index in 0..3. -/
theorem table_accesses_in_bounds (currentIndex : Int) (state : Nat)
    (stepBitPos directionBitPos : Fin 8) :
    (0 ≤ getNextIndex currentIndex ∧ getNextIndex currentIndex ≤ 3
        ∧ (getNextIndex currentIndex).toNat < PHASES.length)
      ∧ (bitAt state stepBitPos.val = 0 ∨ bitAt state stepBitPos.val = 1)
      ∧ (bitAt state directionBitPos.val = 0 ∨ bitAt state directionBitPos.val = 1)
      ∧ (0 ≤ slotPhase state stepBitPos.val directionBitPos.val
        ∧ slotPhase state stepBitPos.val directionBitPos.val ≤ 3
        ∧ (slotPhase state stepBitPos.val directionBitPos.val).toNat < PHASE_INDEX.length)
      ∧ tableAt PHASE_INDEX (slotPhase state stepBitPos.val directionBitPos.val) ≤ 3 := by
  have hs : stepBitPos.val < 31 := by omega
  have hd : directionBitPos.val < 31 := by omega
  refine ⟨?_, ?_, ?_, ?_, ?_⟩
  · rcases getNextIndex_cases currentIndex with h | h | h | h <;> rw [h] <;> decide
  · rw [bitAt_eq _ _ hs]
    cases state.testBit stepBitPos.val <;> decide
  · rw [bitAt_eq _ _ hd]
    cases state.testBit directionBitPos.val <;> decide
  · rw [slotPhase_eq _ _ _ hs hd]
    cases state.testBit stepBitPos.val <;> cases state.testBit directionBitPos.val <;> decide
  · rw [slotPhase_eq _ _ _ hs hd]
    cases state.testBit stepBitPos.val <;> cases state.testBit directionBitPos.val <;> decide

/-- C19: for every byte `pattern`, `invertIfNecessary(0, pattern)` is
`255 - pattern` and `invertIfNecessary(dir, pattern)` is `pattern` for every
`dir` other than 0; masked with 3, the inversion maps 0, 1, 3, 2 to 3, 2, 0, 1;
and inverting twice gives back `pattern`. -/
theorem invertIfNecessary_spec (dir : Int) (pattern : Nat) (hp : pattern < 256) :
    invertIfNecessary 0 pattern = 255 - pattern
      ∧ (dir ≠ 0 → invertIfNecessary dir pattern = pattern)
      ∧ invertIfNecessary 0 (invertIfNecessary 0 pattern) = pattern
      ∧ CInt.toUInt8 (CInt.land ((invertIfNecessary 0 0 : Nat) : Int) 3) = 3
      ∧ CInt.toUInt8 (CInt.land ((invertIfNecessary 0 1 : Nat) : Int) 3) = 2
      ∧ CInt.toUInt8 (CInt.land ((invertIfNecessary 0 3 : Nat) : Int) 3) = 0
      ∧ CInt.toUInt8 (CInt.land ((invertIfNecessary 0 2 : Nat) : Int) 3) = 1 := by
  have h1 : invertIfNecessary 0 pattern = 255 - pattern :=
    invertIfNecessary_zero_byte ⟨pattern, hp⟩
  have h2 : invertIfNecessary 0 (255 - pattern) = 255 - (255 - pattern) :=
    invertIfNecessary_zero_byte ⟨255 - pattern, by omega⟩
  refine ⟨h1, ?_, ?_, by decide, by decide, by decide, by decide⟩
  · intro hdir
    simp [invertIfNecessary, hdir]
  · rw [h1, h2]
    omega

/-- Witness of C19 at the pattern 2 (binary 10) and the direction flag 1. -/
theorem invertIfNecessary_spec_witness :
    (2 : Nat) < 256 ∧ invertIfNecessary 0 2 = 253 ∧ invertIfNecessary 1 2 = 2 :=
  ⟨by decide, (invertIfNecessary_spec 1 2 (by decide)).1,
    (invertIfNecessary_spec 1 2 (by decide)).2.1 (by decide)⟩

theorem foldl_three {α β : Type} (f : β → α → β) (b : β) (x y z : α) :
    List.foldl f b [x, y, z] = f (f (f b x) y) z := rfl

theorem setPhaseInOrder_three (input state : Nat) (x y z : Nat × Nat) :
    setPhaseInOrder input state [x, y, z]
      = setPhase input state (setPhase input state (setPhase input state input x.1 x.2) y.1 y.2)
          z.1 z.2 := by
  rw [setPhaseInOrder, foldl_three]

theorem getMultiAxisPhase_eq_setPhaseInOrder (input state : Nat) :
    getMultiAxisPhase input state = setPhaseInOrder input state axisSlots := by
  rw [axisSlots, setPhaseInOrder_three, getMultiAxisPhase]

theorem setPhase_comm (i st r s1 d1 s2 d2 : Nat)
    (hs1 : s1 < 31) (hd1 : d1 < 31) (hs2 : s2 < 31) (hd2 : d2 < 31)
    (h1 : s1 ≠ s2) (h2 : s1 ≠ d2) (h3 : d1 ≠ s2) (h4 : d1 ≠ d2) :
    setPhase i st (setPhase i st r s1 d1) s2 d2
      = setPhase i st (setPhase i st r s2 d2) s1 d1 := by
  apply Nat.eq_of_testBit_eq
  intro k
  simp only [setPhase_testBit _ _ _ _ _ _ hs1 hd1, setPhase_testBit _ _ _ _ _ _ hs2 hd2]
  by_cases h8 : k < 8
  · by_cases k1 : k = s1
    · subst k1; simp [h8, h1, h2]
    by_cases k2 : k = d1
    · subst k2; simp [h8, h3, h4, k1]
    by_cases k3 : k = s2
    · subst k3; simp [h8, k1, k2]
    by_cases k4 : k = d2
    · subst k4; simp [h8, k1, k2, k3]
    simp [h8, k1, k2, k3, k4]
  · simp [h8]

theorem setPhase_comm_axisSlots (i st r : Nat) (x y : Nat × Nat)
    (hx : x ∈ axisSlots) (hy : y ∈ axisSlots) :
    setPhase i st (setPhase i st r x.1 x.2) y.1 y.2
      = setPhase i st (setPhase i st r y.1 y.2) x.1 x.2 := by
  simp only [axisSlots, X_STEP_BIT, X_DIRECTION_BIT, Y_STEP_BIT, Y_DIRECTION_BIT, Z_STEP_BIT,
    Z_DIRECTION_BIT, List.mem_cons, List.mem_singleton, List.not_mem_nil, or_false] at hx hy
  by_cases hxy : x = y
  · subst hxy
    exact Eq.refl _
  · rcases hx with h | h | h <;> rcases hy with h' | h' | h' <;> subst h <;> subst h' <;>
      first
        | exact absurd (Eq.refl _) hxy
        | exact setPhase_comm i st r _ _ _ _ (by decide) (by decide) (by decide) (by decide)
            (by decide) (by decide) (by decide) (by decide)

/-- C14: making the three `setPhase` calls for the X, Y and Z slots in any
order, from `result = input`, gives the byte `getMultiAxisPhase(input, state)`
that the order X, Y, Z gives. -/
theorem setPhase_order_irrelevant (input state : Nat) (order : List (Nat × Nat))
    (horder : order.Perm axisSlots) :
    setPhaseInOrder input state order = getMultiAxisPhase input state := by
  have comm : ∀ x ∈ order, ∀ y ∈ order, ∀ z : Nat,
      (fun result (slot : Nat × Nat) => setPhase input state result slot.1 slot.2)
          ((fun result (slot : Nat × Nat) => setPhase input state result slot.1 slot.2) z x) y
        = (fun result (slot : Nat × Nat) => setPhase input state result slot.1 slot.2)
          ((fun result (slot : Nat × Nat) => setPhase input state result slot.1 slot.2) z y)
            x := by
    intro x hx y hy z
    beta_reduce
    exact setPhase_comm_axisSlots input state z x y (horder.subset hx) (horder.subset hy)
  have hfold := List.Perm.foldl_eq'
    (f := fun result (slot : Nat × Nat) => setPhase input state result slot.1 slot.2)
    horder comm input
  rw [getMultiAxisPhase_eq_setPhaseInOrder, setPhaseInOrder, setPhaseInOrder, hfold]

/-- Witness of C14: the order Z, X, Y on the fixture input 44, state 216. -/
theorem setPhase_order_irrelevant_witness :
    List.Perm [(4, 7), (2, 5), (3, 6)] axisSlots
      ∧ setPhaseInOrder 44 216 [(4, 7), (2, 5), (3, 6)] = getMultiAxisPhase 44 216 :=
  ⟨by decide, setPhase_order_irrelevant 44 216 [(4, 7), (2, 5), (3, 6)] (by decide)⟩

theorem axisStep_period (a b : Bool) (q : Bool × Bool) :
    (axisStep a b)^[5] q = axisStep a b q := by
  revert a b q
  decide!

theorem axisStep_nodup (b : Bool) (q : Bool × Bool) :
    [axisStep true b q, (axisStep true b)^[2] q, (axisStep true b)^[3] q,
      (axisStep true b)^[4] q].Nodup := by
  revert b q
  decide!

theorem axisBits_iterate (p s : Nat) (slot : Nat × Nat) (hslot : slot ∈ axisSlots) (n : Nat) :
    axisBits ((getMultiAxisPhase p)^[n] s) slot
      = (axisStep (p.testBit slot.1) (p.testBit slot.2))^[n] (axisBits s slot) := by
  induction n with
  | zero => rw [Function.iterate_zero_apply, Function.iterate_zero_apply]
  | succ n ih =>
    rw [Function.iterate_succ_apply', Function.iterate_succ_apply',
      axisBits_getMultiAxisPhase _ _ slot hslot, ih]

theorem getMultiAxisPhase_and_three (input state : Nat) :
    getMultiAxisPhase input state &&& 3 = input &&& 3 := by
  apply Nat.eq_of_testBit_eq
  intro k
  rw [Nat.testBit_and, Nat.testBit_and, getMultiAxisPhase_testBit,
    show (3 : Nat) = 2 ^ 2 - 1 by rfl, Nat.testBit_two_pow_sub_one]
  by_cases hk : k < 2
  · have h2 : k ≠ 2 := by omega
    have h3 : k ≠ 3 := by omega
    have h4 : k ≠ 4 := by omega
    have h5 : k ≠ 5 := by omega
    have h6 : k ≠ 6 := by omega
    have h7 : k ≠ 7 := by omega
    simp [hk, h2, h3, h4, h5, h6, h7]
  · simp [hk]

theorem byte_ext_axis (x y : Nat) (hx : x < 256) (hy : y < 256) (h01 : x &&& 3 = y &&& 3)
    (hs : ∀ slot ∈ axisSlots, axisBits x slot = axisBits y slot) : x = y := by
  apply Nat.eq_of_testBit_eq
  intro k
  have hX := hs (2, 5) (by decide)
  have hY := hs (3, 6) (by decide)
  have hZ := hs (4, 7) (by decide)
  simp only [axisBits, Prod.mk.injEq] at hX hY hZ
  by_cases h8 : k < 8
  · have h01k : (x &&& 3).testBit k = (y &&& 3).testBit k := by rw [h01]
    rw [Nat.testBit_and, Nat.testBit_and, show (3 : Nat) = 2 ^ 2 - 1 by rfl,
      Nat.testBit_two_pow_sub_one] at h01k
    have hk : k = 0 ∨ k = 1 ∨ k = 2 ∨ k = 3 ∨ k = 4 ∨ k = 5 ∨ k = 6 ∨ k = 7 := by omega
    rcases hk with h | h | h | h | h | h | h | h <;> subst h
    · simpa using h01k
    · simpa using h01k
    · exact hX.1
    · exact hY.1
    · exact hZ.1
    · exact hX.2
    · exact hY.2
    · exact hZ.2
  · have hle : 2 ^ 8 ≤ 2 ^ k := Nat.pow_le_pow_right (by decide) (by omega)
    have h256 : (256 : Nat) = 2 ^ 8 := by rfl
    rw [Nat.testBit_lt_two_pow (by omega), Nat.testBit_lt_two_pow (by omega)]

theorem toHbridgeCalls_replicate_get (p : Nat) :
    ∀ (m n c : Nat), n < m → (toHbridgeCalls c (List.replicate m p)).1[n]?
      = some ((getMultiAxisPhase p)^[n + 1] c) := by
  intro m
  induction m with
  | zero => intro n c h; omega
  | succ m ih =>
    intro n c h
    cases n with
    | zero =>
      rw [List.replicate_succ, toHbridgeCalls_cons, List.getElem?_cons_zero,
        Function.iterate_succ_apply, Function.iterate_zero_apply]
    | succ n =>
      rw [List.replicate_succ, toHbridgeCalls_cons, List.getElem?_cons_succ,
        ih n _ (by omega), Function.iterate_succ_apply (getMultiAxisPhase p) (n + 1) c]

theorem getMultiAxisPhase_iterate_five (p s : Nat) :
    (getMultiAxisPhase p)^[5] s = getMultiAxisPhase p s := by
  have e5 : (getMultiAxisPhase p)^[5] s = getMultiAxisPhase p ((getMultiAxisPhase p)^[4] s) :=
    Function.iterate_succ_apply' (getMultiAxisPhase p) 4 s
  apply byte_ext_axis
  · rw [e5]; exact getMultiAxisPhase_lt _ _
  · exact getMultiAxisPhase_lt _ _
  · rw [e5, getMultiAxisPhase_and_three, getMultiAxisPhase_and_three]
  · intro slot hslot
    rw [axisBits_iterate p s slot hslot 5, axisStep_period,
      axisBits_getMultiAxisPhase p s slot hslot]

theorem getMultiAxisPhase_iterate_nodup (p s : Nat) (slot : Nat × Nat) (hslot : slot ∈ axisSlots)
    (hstep : p.testBit slot.1 = true) :
    [getMultiAxisPhase p s, (getMultiAxisPhase p)^[2] s, (getMultiAxisPhase p)^[3] s,
      (getMultiAxisPhase p)^[4] s].Nodup := by
  apply List.Nodup.of_map (fun x => axisBits x slot)
  have h1 : axisBits (getMultiAxisPhase p s) slot
      = axisStep true (p.testBit slot.2) (axisBits s slot) := by
    rw [axisBits_getMultiAxisPhase p s slot hslot, hstep]
  simp only [List.map_cons, List.map_nil, axisBits_iterate p s slot hslot, h1, hstep]
  exact axisStep_nodup _ _

/-- C18: for every input `p` and every stored state `s`, with
`f(x) = getMultiAxisPhase(p, x)`, `f` applied 5 times to `s` equals `f(s)`, so
the outputs of repeated `toHbridge(p)` calls repeat with period 4 from the
first output on; and when the three step bits of `p` are set, the four outputs
of one period are pairwise distinct. -/
theorem toHbridge_period_four (p s : Nat) :
    (getMultiAxisPhase p)^[5] s = getMultiAxisPhase p s
      ∧ (∀ n : Nat, (toHbridgeCalls s (List.replicate (n + 5) p)).1[n + 4]?
          = (toHbridgeCalls s (List.replicate (n + 5) p)).1[n]?)
      ∧ (bitAt p X_STEP_BIT = 1 → bitAt p Y_STEP_BIT = 1 → bitAt p Z_STEP_BIT = 1 →
          [getMultiAxisPhase p s, (getMultiAxisPhase p)^[2] s, (getMultiAxisPhase p)^[3] s,
            (getMultiAxisPhase p)^[4] s].Nodup) := by
  refine ⟨getMultiAxisPhase_iterate_five p s, ?_, ?_⟩
  · intro n
    rw [toHbridgeCalls_replicate_get p (n + 5) (n + 4) s (by omega),
      toHbridgeCalls_replicate_get p (n + 5) n s (by omega),
      Function.iterate_add_apply (getMultiAxisPhase p) n 5 s,
      getMultiAxisPhase_iterate_five, ← Function.iterate_succ_apply]
  · intro hx _ _
    exact getMultiAxisPhase_iterate_nodup p s (X_STEP_BIT, X_DIRECTION_BIT) (by decide)
      (testBit_true_of_bitAt_eq_one p 2 (by decide) hx)

/-- Witness of C18 for the pattern 28 from the state 0: the fifth output is the
first, and the outputs 28, 252, 224, 0 of one period are distinct. -/
theorem toHbridge_period_four_witness :
    (getMultiAxisPhase 28)^[5] 0 = getMultiAxisPhase 28 0
      ∧ [getMultiAxisPhase 28 0, (getMultiAxisPhase 28)^[2] 0, (getMultiAxisPhase 28)^[3] 0,
          (getMultiAxisPhase 28)^[4] 0].Nodup :=
  ⟨(toHbridge_period_four 28 0).1,
    (toHbridge_period_four 28 0).2.2 (by decide) (by decide) (by decide)⟩

end Hbridge
